import Mathlib

/-!
Verification of the shortest-path program `prac_gp_daa.py`
(Dijkstra and Floyd-Warshall over a user-entered directed weighted graph).

The Python data structures are shallowly embedded:
* `sys.maxsize` becomes the constant `INFINITY = 2^63 - 1`;
* the graph dict `{vertex: {neighbor: weight}}` becomes an association list
  `PyGraph = List (String × List (String × Nat))` (Python dict keys are unique
  and iterate in insertion order, which an association list preserves);
* integer-indexed `n × n` matrices (Python lists of lists) become total
  functions `Nat → Nat → Nat`, read and written only at indices `< n`;
* the distance dict of `dijkstra` becomes a total function `String → Nat`
  (the program only ever reads it at graph vertices);
* Python's unbounded non-negative integers (weights validated by `isdigit`)
  become `Nat`, with no implicit wrap-around anywhere, exactly as in CPython.
-/


/-- `sys.maxsize` on a 64-bit CPython build, used by the program as the
"unreachable" sentinel. -/
def INFINITY : Nat := 9223372036854775807

/-- The graph built by `input_graph`: an insertion-ordered association list
mirroring the Python dict `{vertex: {neighbor: weight}}`. -/
abbrev PyGraph : Type := List (String × List (String × Nat))

/-- The key list of the graph dict (Python `list(graph)`). -/
def keysOf (g : PyGraph) : List String := List.map Prod.fst g

/-- `graph[u]` as an adjacency list; `[]` when `u` is not a key
(the program only looks up genuine keys). -/
def adj (g : PyGraph) (u : String) : List (String × Nat) :=
  Option.getD (List.lookup u g) []

/-- `graph[u][v]`, i.e. the weight of the directed edge `u → v` when present. -/
def edgeW (g : PyGraph) (u v : String) : Option Nat :=
  List.lookup v (adj g u)

/-- Well-formedness guaranteed by `input_graph` for the dict it returns:
unique vertex keys, unique neighbor keys inside each adjacency dict, and
every edge endpoint validated to be a declared vertex. -/
def WFGraph (g : PyGraph) : Prop :=
  List.Nodup (keysOf g) ∧
    ∀ p ∈ g, List.Nodup (List.map Prod.fst p.2) ∧
      ∀ q ∈ p.2, q.1 ∈ keysOf g

instance (g : PyGraph) : Decidable (WFGraph g) := by
  unfold WFGraph; infer_instance

/-! ## Paths and shortest distances (the specification side)

`GPath g s v d` holds when the directed graph `g` has a walk from `s` to `v`
of total edge weight `d`.  This is the mathematical notion the spec's
"minimum total edge weight over all paths" refers to. -/

inductive GPath (g : PyGraph) (s : String) : String → Nat → Prop
  | nil : GPath g s s 0
  | snoc {u v : String} {d w : Nat} :
      GPath g s u d → (v, w) ∈ adj g u → GPath g s v (d + w)

/-- `v` is reachable from `s` in `g`. -/
def Reachable (g : PyGraph) (s v : String) : Prop := ∃ d, GPath g s v d

/-- `d` is the minimum total edge weight over all paths `s → v`. -/
def IsShortest (g : PyGraph) (s v : String) (d : Nat) : Prop :=
  GPath g s v d ∧ ∀ d', GPath g s v d' → d ≤ d'

/-! ## Floyd-Warshall (`floyd_warshall`, lines 100–127)

Matrices are Python lists of lists, embedded as `List (List Nat)`; cells are
read with `mget` (out-of-range reads default to 0 and never occur in the
program, which touches only indices below `n = len(vertices)`). -/

/-- A distance matrix (Python list of lists). -/
abbrev Mat : Type := List (List Nat)

/-- `dist[i][j]`. -/
def mget (m : Mat) (i j : Nat) : Nat := List.getD (List.getD m i []) j 0

/-- `dist[i][j] = v` (single-cell write). -/
def mset (m : Mat) (i j v : Nat) : Mat :=
  List.set m i (List.set (List.getD m i []) j v)

/-- Lines 104–105: `for i in range(n): dist[i][i] = 0`. -/
def setDiag (n : Nat) (m : Mat) : Mat :=
  List.foldl (fun m i => mset m i i 0) m (List.range n)

/-- Lines 107–109: write each edge `vertices[i] → j` at column
`vertices.index(j)`.  The inner fold is the iteration over the keys of the
dict `graph[vertices[i]]`. -/
def writeEdges (g : PyGraph) (vs : List String) (m : Mat) : Mat :=
  List.foldl
    (fun m i =>
      List.foldl (fun m p => mset m i (List.indexOf p.1 vs) p.2) m
        (adj g (List.getD vs i "")))
    m (List.range vs.length)

/-- Lines 102–109: the initial matrix `D⁰`
(`[[sys.maxsize]*n for _ in range(n)]`, then the zero diagonal, then the
direct edge weights, in exactly the source's order). -/
def initMatrix (g : PyGraph) (vs : List String) : Mat :=
  writeEdges g vs (setDiag vs.length
    (List.replicate vs.length (List.replicate vs.length INFINITY)))

/-- Lines 121–122: the relaxation of one cell `(i, j)` through pivot `k`,
performed in place on the current matrix. -/
def fwUpdate (k : Nat) (m : Mat) (i j : Nat) : Mat :=
  if mget m i j > mget m i k + mget m k j then
    mset m i j (mget m i k + mget m k j)
  else m

/-- Line 120: the inner `for j in range(n)` loop for a fixed row `i`. -/
def fwRow (k i n : Nat) (m : Mat) : Mat :=
  List.foldl (fun m j => fwUpdate k m i j) m (List.range n)

/-- Lines 119–122: one full pivot pass (`for i ... for j ...`) for pivot `k`,
sequentially in place, exactly as the source's triple loop body. -/
def fwPass (k n : Nat) (m : Mat) : Mat :=
  List.foldl (fun m i => fwRow k i n m) m (List.range n)

/-- Lines 118–125 state: one iteration of the outer `for k in range(n)` loop:
run the pass, then append a (deep) copy of the matrix to `all_matrices`. -/
def fwStep (n : Nat) (st : Mat × List Mat) (k : Nat) : Mat × List Mat :=
  (fwPass k n st.1, st.2 ++ [fwPass k n st.1])

/-- Lines 100–127: `floyd_warshall(graph, vertices)`, returning
`(dist, all_matrices)`. -/
def floydWarshall (g : PyGraph) (vs : List String) : Mat × List Mat :=
  List.foldl (fwStep vs.length) (initMatrix g vs, [initMatrix g vs])
    (List.range vs.length)

/-- The matrix after the pivot passes listed in `ks` (specification-side
reformulation of the loop state, used to express snapshot immutability). -/
def passes (n : Nat) (m : Mat) (ks : List Nat) : Mat :=
  List.foldl (fun m k => fwPass k n m) m ks

/-- Spec-side description of the initial matrix (§3/§8 of the spec, diagonal
clause first): 0 on the diagonal, the direct edge weight off-diagonal where
an edge exists, `INFINITY` in every other cell. -/
def specInitMatrix (g : PyGraph) (vs : List String) (i j : Nat) : Nat :=
  if i = j then 0
  else Option.getD (edgeW g (List.getD vs i "") (List.getD vs j "")) INFINITY

/-- The matrix is `n × n`. -/
abbrev Dims (n : Nat) (m : Mat) : Prop := m.length = n ∧ ∀ r ∈ m, r.length = n

/-! ### Hypotheses on program inputs -/

/-- Well-formedness of the `(graph, vertices)` pair built by `input_graph`
when all entered vertex names are distinct: the vertex list has no
duplicates, each adjacency dict has unique keys (Python dicts cannot have
duplicate keys), and every edge endpoint was validated to be an entered
vertex. -/
def WFfw (g : PyGraph) (vs : List String) : Prop :=
  List.Nodup vs ∧
    ∀ p ∈ g, List.Nodup (List.map Prod.fst p.2) ∧ ∀ q ∈ p.2, q.1 ∈ vs

instance (g : PyGraph) (vs : List String) : Decidable (WFfw g vs) := by
  unfold WFfw; infer_instance

/-- Every self-loop edge in the graph (if any) has weight 0. -/
def SelfLoopsZero (g : PyGraph) : Prop :=
  ∀ p ∈ g, ∀ q ∈ p.2, q.1 = p.1 → q.2 = 0

instance (g : PyGraph) : Decidable (SelfLoopsZero g) := by
  unfold SelfLoopsZero; infer_instance

/-- Every edge weight is at most the `sys.maxsize` sentinel. -/
def WeightsLe (g : PyGraph) : Prop := ∀ p ∈ g, ∀ q ∈ p.2, q.2 ≤ INFINITY

instance (g : PyGraph) : Decidable (WeightsLe g) := by
  unfold WeightsLe; infer_instance

/-! ### The diagonal stays zero; cells never exceed the sentinel -/

/-- The diagonal entries below `n` are all zero. -/
def DiagZero (n : Nat) (m : Mat) : Prop := ∀ c, c < n → mget m c c = 0

/-- All entries are at most the sentinel. -/
def CellsLe (m : Mat) : Prop := ∀ a b, mget m a b ≤ INFINITY

/-! ## Concrete graphs used in witnesses and counterexamples -/

set_option maxRecDepth 100000

/-- The spec's §8 scenario: vertices `[A, B, C]`, edges `A→B=4`, `A→C=10`,
`B→C=2`. -/
def exG : PyGraph := [("A", [("B", 4), ("C", 10)]), ("B", [("C", 2)]), ("C", [])]

def exVs : List String := ["A", "B", "C"]

/-- A single vertex with a positive-weight self-loop `a→a = 5`. -/
def loopG : PyGraph := [("a", [("a", 5)])]

def loopVs : List String := ["a"]

/-- Two vertices with one edge of weight `sys.maxsize + 1`. -/
def bigG : PyGraph := [("a", [("b", INFINITY + 1)]), ("b", [])]

def bigVs : List String := ["a", "b"]

/-- Three vertices: `a→c` of weight `sys.maxsize + 5`, `b→c` of weight 3,
and no edge `a→b`, so the pivot leg `a→b` stays at the sentinel. -/
def pivG : PyGraph :=
  [("a", [("c", INFINITY + 5)]), ("b", [("c", 3)]), ("c", [])]

def pivVs : List String := ["a", "b", "c"]

/-! ## Dijkstra (`dijkstra`, lines 76–94)

The distance dict becomes a total function `String → Nat` (initialised to
`INFINITY` and read by the program only at graph vertices); the `heapq`
min-heap becomes a list from which `popMin` removes a least element under
the lexicographic order on `(distance, vertex)` pairs, exactly the order
`heapq.heappop` uses on tuples. -/

/-- `distances[x] = v` (dict assignment, affecting subsequent reads). -/
def updateD (dist : String → Nat) (x : String) (v : Nat) : String → Nat :=
  fun y => if y = x then v else dist y

/-- `heapq.heappop`: remove a least `(distance, vertex)` pair (lexicographic
tuple order); `none` on an empty heap (the loop exits instead). -/
def popMin : List (Nat × String) → Option ((Nat × String) × List (Nat × String))
  | [] => none
  | x :: xs =>
    match popMin xs with
    | none => some (x, [])
    | some (m, rest) =>
      if x.1 < m.1 ∨ (x.1 = m.1 ∧ x.2 < m.2) then some (x, m :: rest)
      else some (m, x :: rest)

/-- Lines 88–92: the `for neighbor, weight in graph[current_vertex].items()`
loop, relaxing each neighbor and pushing updated entries. -/
def relaxNbrs (d : Nat) : List (String × Nat) → (String → Nat) →
    List (Nat × String) → (String → Nat) × List (Nat × String)
  | [], dist, pq => (dist, pq)
  | (nb, w) :: rest, dist, pq =>
    if d + w < dist nb then
      relaxNbrs d rest (updateD dist nb (d + w)) (pq ++ [(d + w, nb)])
    else
      relaxNbrs d rest dist pq

/-- Lines 82–92: the `while pq:` loop.  The fuel argument only bounds the
number of iterations; `dFuel` below always suffices, so the fuel-exhaustion
branch is never taken on any run (`dijkstraLoop_post` relies on exactly
this). -/
def dijkstraLoop (g : PyGraph) : Nat → (String → Nat) → List (Nat × String) →
    (String → Nat)
  | 0, dist, _ => dist
  | fuel + 1, dist, pq =>
    match popMin pq with
    | none => dist
    | some ((d, u), rest) =>
      if d > dist u then dijkstraLoop g fuel dist rest
      else
        dijkstraLoop g fuel (relaxNbrs d (adj g u) dist rest).1
          (relaxNbrs d (adj g u) dist rest).2

/-- All neighbor labels occurring in adjacency dicts. -/
def nbrNames (g : PyGraph) : List String :=
  List.foldr (fun p acc => List.map Prod.fst p.2 ++ acc) [] g

/-- Every vertex label the algorithm can ever touch. -/
def gNames (g : PyGraph) : List String := keysOf g ++ nbrNames g

/-- An iteration bound that provably exceeds the loop's termination measure
`2 * (sum of all tentative distances) + |pq|`. -/
def dFuel (g : PyGraph) : Nat := 2 * (INFINITY * (gNames g).length) + 2

/-- Lines 76–94: `dijkstra(graph, start)`: distances all `sys.maxsize`, the
start at 0, frontier `[(0, start)]`, then the relaxation loop. -/
def dijkstra (g : PyGraph) (start : String) : String → Nat :=
  dijkstraLoop g (dFuel g) (updateD (fun _ => INFINITY) start 0) [(0, start)]

/-! ## The graph-input loop (`input_graph`, lines 40–47) and the
single-source menu action (`main`, lines 240–247) -/

/-- Lines 43–45: the vertex-entry loop appends each entered name to
`vertices`, with no duplicate check. -/
def enterVertices (names : List String) : List String :=
  List.foldl (fun vs s => vs ++ [s]) [] names

/-- Python dict assignment `d[k] = v`: replace in place if the key exists,
else append. -/
def dictInsert (g : PyGraph) (k : String) (v : List (String × Nat)) : PyGraph :=
  if k ∈ keysOf g then List.map (fun p => if p.1 = k then (k, v) else p) g
  else g ++ [(k, v)]

/-- Line 47: `graph = {v: {} for v in vertices}` — a dict comprehension,
collapsing duplicate labels to a single key. -/
def graphInit (vertices : List String) : PyGraph :=
  List.foldl (fun acc v => dictInsert acc v []) [] vertices

/-- The insertion-ordered distinct labels (Python dict key order). -/
def firstDedup (l : List String) : List String :=
  List.foldl (fun acc v => if v ∈ acc then acc else acc ++ [v]) [] l

/-- Lines 240–247 of `main`, menu choice 1: reject a source not in
`vertices` (the only error path), otherwise run `dijkstra`. -/
def runDijkstraChoice (g : PyGraph) (vertices : List String)
    (source : String) : Option (String → Nat) :=
  if source ∈ vertices then some (dijkstra g source) else none

/-! ### The termination measure -/

/-- Sum of the tentative distances over a list of labels. -/
def sumD (L : List String) (dist : String → Nat) : Nat :=
  List.sum (List.map dist L)

/-! ### The loop invariant -/

/-- Invariant of the `while pq:` loop: the source is settled at 0, every
tentative distance is at most the sentinel, every tentative distance below
the sentinel is attained by some path, heap entries never undershoot the
recorded distance, and every reached vertex either has a live heap entry for
its current distance or has all its outgoing edges relaxed. -/
def DInv (g : PyGraph) (s : String) (dist : String → Nat)
    (pq : List (Nat × String)) : Prop :=
  dist s = 0 ∧
  (∀ v, dist v ≤ INFINITY) ∧
  (∀ v, dist v = INFINITY ∨ GPath g s v (dist v)) ∧
  (∀ d u, (d, u) ∈ pq → dist u ≤ d) ∧
  (∀ u, dist u < INFINITY → (dist u, u) ∈ pq ∨
    ∀ v w, (v, w) ∈ adj g u → dist v ≤ dist u + w)

/-- What holds of the distance map when the loop exits. -/
def DPost (g : PyGraph) (s : String) (dist : String → Nat) : Prop :=
  dist s = 0 ∧
  (∀ v, dist v ≤ INFINITY) ∧
  (∀ v, dist v = INFINITY ∨ GPath g s v (dist v)) ∧
  (∀ u, dist u < INFINITY → ∀ v w, (v, w) ∈ adj g u → dist v ≤ dist u + w)

/-- The spec's §8 scenario extended with the isolated vertex `D`. -/
def isoG : PyGraph :=
  [("A", [("B", 4), ("C", 10)]), ("B", [("C", 2)]), ("C", []), ("D", [])]

/-! ### Basic fold lemmas for the snapshot list -/

theorem fw_fold_fst (n : Nat) (ks : List Nat) :
    ∀ (m : Mat) (acc : List Mat),
      (List.foldl (fwStep n) (m, acc) ks).1 = passes n m ks := by
  induction ks with
  | nil => intro m acc; rfl
  | cons k ks ih =>
      intro m acc
      simpa [fwStep, passes] using ih (fwPass k n m) (acc ++ [fwPass k n m])

theorem fw_fold_snd (n : Nat) (ks : List Nat) :
    ∀ (m : Mat) (acc : List Mat),
      (List.foldl (fwStep n) (m, acc) ks).2 =
        acc ++ List.map (fun j => passes n m (List.take (j + 1) ks))
          (List.range ks.length) := by
  induction ks with
  | nil => intro m acc; simp
  | cons k ks ih =>
      intro m acc
      have h := ih (fwPass k n m) (acc ++ [fwPass k n m])
      rw [List.foldl_cons, fwStep] at *
      rw [h]
      simp only [List.length_cons, List.range_succ_eq_map, List.map_cons,
        List.map_map, List.take_zero]
      simp [passes, List.append_assoc, Function.comp_def]

theorem lookup_mem {β : Type} {u : String} {l : List (String × β)} {b : β}
    (h : List.lookup u l = some b) : (u, b) ∈ l := by
  induction l with
  | nil => simp at h
  | cons p t ih =>
      obtain ⟨k, v⟩ := p
      by_cases hk : u = k
      · subst hk
        rw [List.lookup, show (u == u) = true by simp] at h
        cases h
        exact List.mem_cons_self _ _
      · rw [List.lookup, show (u == k) = false by simp [hk]] at h
        exact List.mem_cons_of_mem _ (ih h)

theorem adj_sub {g : PyGraph} {u : String} {q : String × Nat} (hq : q ∈ adj g u) :
    ∃ a, (u, a) ∈ g ∧ q ∈ a := by
  unfold adj at hq
  cases hl : List.lookup u g with
  | none => rw [hl] at hq; simp at hq
  | some a =>
      rw [hl] at hq
      exact ⟨a, lookup_mem hl, hq⟩

theorem snaps_length (g : PyGraph) (vs : List String) :
    ((floydWarshall g vs).2).length = vs.length + 1 := by
  unfold floydWarshall
  rw [fw_fold_snd]
  simp [Nat.add_comm]

theorem snaps_getD (g : PyGraph) (vs : List String) (k : Nat) (hk : k ≤ vs.length) :
    List.getD ((floydWarshall g vs).2) k [] =
      passes vs.length (initMatrix g vs) (List.range k) := by
  unfold floydWarshall
  rw [fw_fold_snd]
  match k with
  | 0 => simp [passes]
  | Nat.succ k =>
      have hk' : k < vs.length := hk
      rw [List.singleton_append, List.getD_cons_succ]
      simp only [List.length_range]
      have hlen : k < (List.map
          (fun j => passes vs.length (initMatrix g vs)
            (List.take (j + 1) (List.range vs.length)))
          (List.range vs.length)).length := by
        simpa using hk'
      rw [List.getD_eq_getElem ((List.map
          (fun j => passes vs.length (initMatrix g vs)
            (List.take (j + 1) (List.range vs.length)))
          (List.range vs.length))) [] hlen]
      simp only [List.getElem_map, List.getElem_range]
      rw [List.take_range]
      have hmin : min (k + 1) vs.length = k + 1 := by omega
      rw [hmin]

theorem snaps_getD_succ (g : PyGraph) (vs : List String) (k : Nat)
    (hk : k < vs.length) :
    List.getD ((floydWarshall g vs).2) (k + 1) [] =
      fwPass k vs.length (List.getD ((floydWarshall g vs).2) k []) := by
  rw [snaps_getD g vs k (Nat.le_of_lt hk), snaps_getD g vs (k + 1) hk]
  rw [List.range_succ]
  unfold passes
  rw [List.foldl_append]
  rfl

theorem final_eq_passes (g : PyGraph) (vs : List String) :
    (floydWarshall g vs).1 =
      passes vs.length (initMatrix g vs) (List.range vs.length) := by
  unfold floydWarshall
  rw [fw_fold_fst]

/-! ### Cell-level lemmas for matrix reads and writes -/

theorem mget_mset_other (m : Mat) (i j v a b : Nat) (h : ¬(a = i ∧ b = j)) :
    mget (mset m i j v) a b = mget m a b := by
  unfold mget mset
  by_cases hai : a = i
  · subst hai
    have hbj : b ≠ j := fun hb => h ⟨rfl, hb⟩
    by_cases hi : a < m.length
    · have hrow : List.getD (List.set m a ((List.getD m a []).set j v)) a [] =
          (List.getD m a []).set j v := by
        rw [List.getD_eq_getElem?_getD, List.getElem?_set_self hi]
        rfl
      rw [hrow]
      rw [List.getD_eq_getElem?_getD, List.getElem?_set_ne (fun hc => hbj hc.symm),
        ← List.getD_eq_getElem?_getD]
    · rw [List.set_eq_of_length_le (by omega)]
  · have hrow : List.getD (List.set m i ((List.getD m i []).set j v)) a [] =
        List.getD m a [] := by
      rw [List.getD_eq_getElem?_getD, List.getElem?_set_ne (fun hc => hai hc.symm),
        ← List.getD_eq_getElem?_getD]
    rw [hrow]

theorem mget_mset_self (m : Mat) (i j v : Nat) (hi : i < m.length)
    (hj : j < (List.getD m i []).length) : mget (mset m i j v) i j = v := by
  unfold mget mset
  have hrow : List.getD (List.set m i ((List.getD m i []).set j v)) i [] =
      (List.getD m i []).set j v := by
    rw [List.getD_eq_getElem?_getD, List.getElem?_set_self hi]
    rfl
  rw [hrow]
  rw [List.getD_eq_getElem?_getD, List.getElem?_set_self hj]
  rfl

theorem mget_pos_bounds {m : Mat} {i j : Nat} (h : 0 < mget m i j) :
    i < m.length ∧ j < (List.getD m i []).length := by
  unfold mget at h
  constructor
  · by_contra hc
    rw [List.getD_eq_default m _ (by omega)] at h
    simp [List.getD] at h
  · by_contra hc
    rw [List.getD_eq_default _ _ (by omega)] at h
    exact Nat.lt_irrefl 0 h

theorem fwUpdate_le (k : Nat) (m : Mat) (i j a b : Nat) :
    mget (fwUpdate k m i j) a b ≤ mget m a b := by
  unfold fwUpdate
  by_cases hg : mget m i j > mget m i k + mget m k j
  · rw [if_pos hg]
    by_cases hab : a = i ∧ b = j
    · obtain ⟨ha, hb⟩ := hab
      subst ha; subst hb
      have hpos : 0 < mget m a b := Nat.lt_of_le_of_lt (Nat.zero_le _) hg
      obtain ⟨h1, h2⟩ := mget_pos_bounds hpos
      rw [mget_mset_self m a b _ h1 h2]
      exact Nat.le_of_lt hg
    · rw [mget_mset_other m i j _ a b hab]
  · rw [if_neg hg]

theorem fwRow_le (k i : Nat) (l : List Nat) :
    ∀ (m : Mat) (a b : Nat),
      mget (List.foldl (fun m j => fwUpdate k m i j) m l) a b ≤ mget m a b := by
  induction l with
  | nil => intro m a b; exact Nat.le_refl _
  | cons j t ih =>
      intro m a b
      exact Nat.le_trans (ih (fwUpdate k m i j) a b) (fwUpdate_le k m i j a b)

theorem fwPass_le (k n : Nat) (m : Mat) (a b : Nat) :
    mget (fwPass k n m) a b ≤ mget m a b := by
  unfold fwPass fwRow
  have h : ∀ (l : List Nat) (m : Mat),
      mget (List.foldl (fun m i => List.foldl (fun m j => fwUpdate k m i j) m
        (List.range n)) m l) a b ≤ mget m a b := by
    intro l
    induction l with
    | nil => intro m; exact Nat.le_refl _
    | cons i t ih =>
        intro m
        exact Nat.le_trans (ih _) (fwRow_le k i (List.range n) m a b)
  exact h (List.range n) m

/-! ### Dimension bookkeeping -/

theorem foldl_preserve_mem {α β : Type} {P : β → Prop} {f : β → α → β}
    (l : List α) (h : ∀ m x, x ∈ l → P m → P (f m x)) :
    ∀ m, P m → P (List.foldl f m l) := by
  induction l with
  | nil => intro m hm; exact hm
  | cons x t ih =>
      intro m hm
      exact ih (fun m y hy => h m y (List.mem_cons_of_mem _ hy))
        (f m x) (h m x (List.mem_cons_self _ _) hm)

theorem Dims_row {N : Nat} {m : Mat} (hd : Dims N m) {i : Nat} (hi : i < N) :
    (List.getD m i []).length = N := by
  have hi' : i < m.length := by rw [hd.1]; exact hi
  rw [List.getD_eq_getElem m _ hi']
  exact hd.2 _ (List.getElem_mem hi')

theorem Dims_mset {N : Nat} {m : Mat} (hd : Dims N m) (i j v : Nat) :
    Dims N (mset m i j v) := by
  by_cases hi : i < m.length
  · constructor
    · rw [mset, List.length_set]
      exact hd.1
    · intro r hr
      rcases List.mem_or_eq_of_mem_set hr with hmem | heq
      · exact hd.2 r hmem
      · subst heq
        rw [List.length_set]
        exact Dims_row hd (by rw [← hd.1]; exact hi)
  · rw [mset, List.set_eq_of_length_le (by omega)]
    exact hd

theorem Dims_setDiag {N : Nat} {m : Mat} (hd : Dims N m) (n : Nat) :
    Dims N (setDiag n m) :=
  foldl_preserve_mem (P := Dims N) _ (fun m i _ hm => Dims_mset hm i i 0) m hd

theorem Dims_replicate (N : Nat) :
    Dims N (List.replicate N (List.replicate N INFINITY)) := by
  constructor
  · exact List.length_replicate _ _
  · intro r hr
    rw [List.eq_of_mem_replicate hr]
    exact List.length_replicate _ _

theorem setDiag_mget {N : Nat} {m : Mat} (hd : Dims N m) :
    ∀ (n : Nat), n ≤ N → ∀ a b,
      mget (setDiag n m) a b = if a = b ∧ a < n then 0 else mget m a b := by
  intro n
  induction n with
  | zero => intro _ a b; simp [setDiag]
  | succ n ih =>
      intro hn a b
      unfold setDiag
      rw [List.range_succ, List.foldl_append, List.foldl_cons, List.foldl_nil]
      show mget (mset (setDiag n m) n n 0) a b = _
      have hds : Dims N (setDiag n m) := Dims_setDiag hd n
      by_cases hab : a = n ∧ b = n
      · rw [show mget (mset (setDiag n m) n n 0) a b = 0 from by
          rw [hab.1, hab.2]
          exact mget_mset_self _ _ _ _ (by rw [hds.1]; omega)
            (by rw [Dims_row hds (show n < N by omega)]; omega)]
        rw [if_pos ⟨hab.1.trans hab.2.symm, by rw [hab.1]; omega⟩]
      · rw [mget_mset_other _ _ _ _ _ _ hab, ih (by omega) a b]
        by_cases heq : a = b
        · subst heq
          have han : a ≠ n := fun h => hab ⟨h, h⟩
          have hiff : (a < n) = (a < n + 1) := propext ⟨by omega, by omega⟩
          simp [hiff]
        · simp [heq]

theorem mget_replicate (N : Nat) {a b : Nat} (ha : a < N) (hb : b < N) :
    mget (List.replicate N (List.replicate N INFINITY)) a b = INFINITY := by
  unfold mget
  rw [show List.getD (List.replicate N (List.replicate N INFINITY)) a [] =
      List.replicate N INFINITY from by
    rw [List.getD_eq_getElem _ _ (by simpa using ha)]
    exact List.getElem_replicate _ _]
  rw [List.getD_eq_getElem _ _ (by simpa using hb)]
  exact List.getElem_replicate _ _

theorem WFfw_adj {g : PyGraph} {vs : List String} (h : WFfw g vs) (u : String) :
    List.Nodup (List.map Prod.fst (adj g u)) ∧ ∀ p ∈ adj g u, p.1 ∈ vs := by
  unfold adj
  cases hl : List.lookup u g with
  | none => simp
  | some a => exact h.2 (u, a) (lookup_mem hl)

theorem WeightsLe_adj {g : PyGraph} (h : WeightsLe g) {u : String}
    {q : String × Nat} (hq : q ∈ adj g u) : q.2 ≤ INFINITY := by
  obtain ⟨a, hga, hqa⟩ := adj_sub hq
  exact h (u, a) hga q hqa

/-! ### Cell-level description of the edge-writing loop -/

theorem lookup_eq_none_of_not_mem_keys {β : Type} {k : String}
    {l : List (String × β)} (h : k ∉ List.map Prod.fst l) :
    List.lookup k l = none := by
  cases hl : List.lookup k l with
  | none => rfl
  | some b =>
      exact absurd (List.mem_map.mpr ⟨(k, b), lookup_mem hl, rfl⟩) h

theorem rowW_other (vs : List String) (i : Nat) (l : List (String × Nat)) :
    ∀ (m : Mat) (a b : Nat), a ≠ i →
      mget (List.foldl (fun m p => mset m i (List.indexOf p.1 vs) p.2) m l) a b =
        mget m a b := by
  induction l with
  | nil => intro m a b _; rfl
  | cons p t ih =>
      intro m a b ha
      rw [List.foldl_cons, ih _ a b ha]
      exact mget_mset_other _ _ _ _ _ _ (fun hc => ha hc.1)

theorem rowW_dims {N : Nat} (vs : List String) (i : Nat)
    (l : List (String × Nat)) {m : Mat} (hd : Dims N m) :
    Dims N (List.foldl (fun m p => mset m i (List.indexOf p.1 vs) p.2) m l) :=
  foldl_preserve_mem (P := Dims N) _ (fun m p _ hm => Dims_mset hm _ _ _) m hd

theorem rowW_val (vs : List String) (hvs : vs.Nodup) (i b : Nat)
    (hi : i < vs.length) (hb : b < vs.length) :
    ∀ (l : List (String × Nat)), List.Nodup (List.map Prod.fst l) →
      (∀ p ∈ l, p.1 ∈ vs) → ∀ (m : Mat), Dims vs.length m →
      mget (List.foldl (fun m p => mset m i (List.indexOf p.1 vs) p.2) m l) i b =
        Option.getD (List.lookup (List.getD vs b "") l) (mget m i b) := by
  intro l
  induction l with
  | nil => intro _ _ m _; simp [List.lookup]
  | cons p t ih =>
      intro hnd hsub m hd
      obtain ⟨key, w⟩ := p
      rw [List.foldl_cons]
      have hgd : List.getD vs b "" = vs[b] := List.getD_eq_getElem vs "" hb
      by_cases hkey : key = List.getD vs b ""
      · have hidx : List.indexOf key vs = b := by
          rw [hkey, hgd]
          exact List.indexOf_getElem hvs b hb
        have hlk : List.lookup (List.getD vs b "") ((key, w) :: t) = some w := by
          rw [List.lookup, show (List.getD vs b "" == key) = true by simp [hkey]]
        rw [hlk]
        have hnk : List.getD vs b "" ∉ List.map Prod.fst t := by
          rw [← hkey]
          exact (List.nodup_cons.mp hnd).1
        rw [ih (List.nodup_cons.mp hnd).2
          (fun q hq => hsub q (List.mem_cons_of_mem _ hq)) _ (Dims_mset hd _ _ _)]
        rw [lookup_eq_none_of_not_mem_keys hnk]
        rw [hidx, mget_mset_self m i b w (by rw [hd.1]; exact hi)
          (by rw [Dims_row hd hi]; exact hb)]
        rfl
      · have hkmem : key ∈ vs := hsub (key, w) (List.mem_cons_self _ _)
        have hidx : List.indexOf key vs ≠ b := by
          intro hcontra
          apply hkey
          have hlt : List.indexOf key vs < vs.length := List.indexOf_lt_length.mpr hkmem
          have := List.indexOf_get (a := key) (l := vs) hlt
          rw [hgd]
          rw [← this]
          simp [hcontra]
        have hne : List.getD vs b "" ≠ key := fun h => hkey h.symm
        have hlk : List.lookup (List.getD vs b "") ((key, w) :: t) =
            List.lookup (List.getD vs b "") t := by
          rw [List.lookup, show (List.getD vs b "" == key) = false by
            simpa using hne]
        rw [hlk]
        rw [ih (List.nodup_cons.mp hnd).2
          (fun q hq => hsub q (List.mem_cons_of_mem _ hq)) _ (Dims_mset hd _ _ _)]
        rw [mget_mset_other _ _ _ _ _ _ (fun hc => hidx hc.2.symm)]

theorem rows_other (g : PyGraph) (vs : List String) (I : List Nat) :
    ∀ (m : Mat) (a b : Nat), a ∉ I →
      mget (List.foldl
        (fun m i =>
          List.foldl (fun m p => mset m i (List.indexOf p.1 vs) p.2) m
            (adj g (List.getD vs i "")))
        m I) a b = mget m a b := by
  induction I with
  | nil => intro m a b _; rfl
  | cons i t ih =>
      intro m a b ha
      rw [List.foldl_cons, ih _ a b (fun h => ha (List.mem_cons_of_mem _ h))]
      exact rowW_other vs i _ m a b (fun h => ha (h ▸ List.mem_cons_self _ _))

theorem rows_dims {N : Nat} (g : PyGraph) (vs : List String) (I : List Nat)
    {m : Mat} (hd : Dims N m) :
    Dims N (List.foldl
      (fun m i =>
        List.foldl (fun m p => mset m i (List.indexOf p.1 vs) p.2) m
          (adj g (List.getD vs i "")))
      m I) :=
  foldl_preserve_mem (P := Dims N) _ (fun m i _ hm => rowW_dims vs i _ hm) m hd

theorem rows_val (g : PyGraph) (vs : List String) (hvs : vs.Nodup)
    (hadj : ∀ u, List.Nodup (List.map Prod.fst (adj g u)) ∧
      ∀ p ∈ adj g u, p.1 ∈ vs)
    (I : List Nat) (hI : I.Nodup) (hIr : ∀ i ∈ I, i < vs.length) :
    ∀ (m : Mat), Dims vs.length m → ∀ (a b : Nat), a ∈ I → b < vs.length →
      mget (List.foldl
        (fun m i =>
          List.foldl (fun m p => mset m i (List.indexOf p.1 vs) p.2) m
            (adj g (List.getD vs i "")))
        m I) a b =
        Option.getD (List.lookup (List.getD vs b "") (adj g (List.getD vs a "")))
          (mget m a b) := by
  induction I with
  | nil => intro m _ a b ha _; simp at ha
  | cons i t ih =>
      intro m hd a b ha hb
      rw [List.foldl_cons]
      by_cases hai : a = i
      · subst hai
        rw [rows_other g vs t _ a b (List.nodup_cons.mp hI).1]
        exact rowW_val vs hvs a b (hIr a (List.mem_cons_self _ _)) hb _
          (hadj _).1 (hadj _).2 m hd
      · rw [ih (List.nodup_cons.mp hI).2
            (fun x hx => hIr x (List.mem_cons_of_mem _ hx)) _
            (rowW_dims vs i _ hd) a b
            ((List.mem_cons.mp ha).resolve_left hai) hb]
        rw [rowW_other vs i _ m a b hai]

theorem writeEdges_val (g : PyGraph) (vs : List String) (hvs : vs.Nodup)
    (hadj : ∀ u, List.Nodup (List.map Prod.fst (adj g u)) ∧
      ∀ p ∈ adj g u, p.1 ∈ vs)
    (m : Mat) (hd : Dims vs.length m) (a b : Nat) (ha : a < vs.length)
    (hb : b < vs.length) :
    mget (writeEdges g vs m) a b =
      Option.getD (List.lookup (List.getD vs b "") (adj g (List.getD vs a "")))
        (mget m a b) :=
  rows_val g vs hvs hadj (List.range vs.length) (List.nodup_range _)
    (fun i hi => List.mem_range.mp hi) m hd a b (List.mem_range.mpr ha) hb

theorem writeEdges_dims {N : Nat} (g : PyGraph) (vs : List String) {m : Mat}
    (hd : Dims N m) : Dims N (writeEdges g vs m) :=
  rows_dims g vs _ hd

theorem initMatrix_dims (g : PyGraph) (vs : List String) :
    Dims vs.length (initMatrix g vs) :=
  writeEdges_dims g vs (Dims_setDiag (Dims_replicate _) _)

/-- Under well-formed input with zero-weight self-loops, the initial matrix
is exactly the spec's direct-edge matrix. -/
theorem initMatrix_spec {g : PyGraph} {vs : List String} (hwf : WFfw g vs)
    (hself : SelfLoopsZero g) (a b : Nat) (ha : a < vs.length)
    (hb : b < vs.length) :
    mget (initMatrix g vs) a b = specInitMatrix g vs a b := by
  unfold initMatrix
  rw [writeEdges_val g vs hwf.1 (WFfw_adj hwf) _
    (Dims_setDiag (Dims_replicate _) _) a b ha hb]
  rw [setDiag_mget (Dims_replicate _) vs.length (Nat.le_refl _) a b]
  unfold specInitMatrix edgeW
  by_cases hab : a = b
  · subst hab
    rw [if_pos ⟨rfl, ha⟩, if_pos rfl]
    cases hl : List.lookup (List.getD vs a "") (adj g (List.getD vs a "")) with
    | none => rfl
    | some w =>
        obtain ⟨adjl, hga, hqa⟩ := adj_sub (lookup_mem hl)
        have hzero := hself _ hga _ hqa rfl
        simpa using hzero
  · rw [if_neg (fun hc => hab hc.1), if_neg hab, mget_replicate _ ha hb]

theorem fwUpdate_diag {n : Nat} {m : Mat} (k i j : Nat) (h : DiagZero n m) :
    DiagZero n (fwUpdate k m i j) := by
  intro c hc
  unfold fwUpdate
  by_cases hg : mget m i j > mget m i k + mget m k j
  · rw [if_pos hg]
    by_cases hcij : c = i ∧ c = j
    · exfalso
      rw [← hcij.1, ← hcij.2] at hg
      rw [h c hc] at hg
      exact Nat.not_lt_zero _ hg
    · rw [mget_mset_other _ _ _ _ _ _ hcij]
      exact h c hc
  · rw [if_neg hg]
    exact h c hc

theorem fwPass_diag {n : Nat} (k nn : Nat) {m : Mat} (h : DiagZero n m) :
    DiagZero n (fwPass k nn m) := by
  unfold fwPass fwRow
  refine foldl_preserve_mem (P := DiagZero n) _ (fun m i _ hm => ?_) m h
  exact foldl_preserve_mem (P := DiagZero n) _
    (fun m j _ hm => fwUpdate_diag k i j hm) m hm

theorem passes_diag {n : Nat} (nn : Nat) (ks : List Nat) {m : Mat}
    (h : DiagZero n m) : DiagZero n (passes nn m ks) := by
  unfold passes
  exact foldl_preserve_mem (P := DiagZero n) ks
    (fun m k _ hm => fwPass_diag k nn hm) m h

theorem initMatrix_diag {g : PyGraph} {vs : List String} (hwf : WFfw g vs)
    (hself : SelfLoopsZero g) : DiagZero vs.length (initMatrix g vs) := by
  intro c hc
  rw [initMatrix_spec hwf hself c c hc hc]
  unfold specInitMatrix
  rw [if_pos rfl]

theorem fwUpdate_cellsLe {m : Mat} (k i j : Nat) (h : CellsLe m) :
    CellsLe (fwUpdate k m i j) :=
  fun a b => Nat.le_trans (fwUpdate_le k m i j a b) (h a b)

theorem fwPass_cellsLe (k nn : Nat) {m : Mat} (h : CellsLe m) :
    CellsLe (fwPass k nn m) :=
  fun a b => Nat.le_trans (fwPass_le k nn m a b) (h a b)

theorem passes_cellsLe (nn : Nat) (ks : List Nat) {m : Mat} (h : CellsLe m) :
    CellsLe (passes nn m ks) := by
  unfold passes
  exact foldl_preserve_mem (P := CellsLe) ks
    (fun m k _ hm => fwPass_cellsLe k nn hm) m h

theorem mget_mset_cases (m : Mat) (i j v a b : Nat) :
    mget (mset m i j v) a b = v ∨ mget (mset m i j v) a b = mget m a b := by
  by_cases hab : a = i ∧ b = j
  · obtain ⟨ha, hb⟩ := hab
    subst ha; subst hb
    by_cases hi : a < m.length
    · by_cases hj : b < (List.getD m a []).length
      · exact Or.inl (mget_mset_self m a b v hi hj)
      · refine Or.inr ?_
        unfold mset
        rw [List.set_eq_of_length_le (l := List.getD m a []) (by omega)]
        unfold mget
        by_cases hset : a < m.length
        · rw [show List.getD (List.set m a (List.getD m a [])) a [] =
              List.getD m a [] from by
            rw [List.getD_eq_getElem?_getD, List.getElem?_set_self hset]
            rw [List.getD_eq_getElem?_getD m]
            rw [List.getElem?_eq_getElem hset]
            rfl]
        · rw [List.set_eq_of_length_le (by omega)]
    · refine Or.inr ?_
      unfold mset
      rw [List.set_eq_of_length_le (by omega)]
  · exact Or.inr (mget_mset_other m i j v a b hab)

theorem mset_cellsLe {m : Mat} {v : Nat} (i j : Nat) (hv : v ≤ INFINITY)
    (h : CellsLe m) : CellsLe (mset m i j v) := by
  intro a b
  rcases mget_mset_cases m i j v a b with hc | hc
  · rw [hc]; exact hv
  · rw [hc]; exact h a b

theorem setDiag_cellsLe (n : Nat) {m : Mat} (h : CellsLe m) :
    CellsLe (setDiag n m) := by
  unfold setDiag
  exact foldl_preserve_mem (P := CellsLe) _
    (fun m i _ hm => mset_cellsLe i i (Nat.zero_le _) hm) m h

theorem writeEdges_cellsLe {g : PyGraph} (vs : List String) (hw : WeightsLe g)
    {m : Mat} (h : CellsLe m) : CellsLe (writeEdges g vs m) := by
  unfold writeEdges
  refine foldl_preserve_mem (P := CellsLe) _ (fun m i _ hm => ?_) m h
  exact foldl_preserve_mem (P := CellsLe) _
    (fun m p hp hm => mset_cellsLe _ _ (WeightsLe_adj hw hp) hm) m hm

theorem replicate_cellsLe (N : Nat) :
    CellsLe (List.replicate N (List.replicate N INFINITY)) := by
  intro a b
  unfold mget
  by_cases ha : a < N
  · by_cases hb : b < N
    · rw [show List.getD (List.replicate N (List.replicate N INFINITY)) a [] =
          List.replicate N INFINITY from by
        rw [List.getD_eq_getElem _ _ (by simpa using ha)]
        exact List.getElem_replicate _ _]
      rw [List.getD_eq_getElem _ _ (by simpa using hb)]
      rw [List.getElem_replicate _ _]
    · rw [List.getD_eq_default _ _ (by by_cases hc : a < N <;> simp_all <;> omega)]
      exact Nat.zero_le _
  · rw [List.getD_eq_default (List.replicate N (List.replicate N INFINITY)) _
      (by simpa using ha)]
    rw [List.getD_eq_default _ _ (by simp)]
    exact Nat.zero_le _

theorem initMatrix_cellsLe {g : PyGraph} (vs : List String) (hw : WeightsLe g) :
    CellsLe (initMatrix g vs) :=
  writeEdges_cellsLe vs hw (setDiag_cellsLe _ (replicate_cellsLe _))

/-- Every matrix in the snapshot list has all entries at most the sentinel,
provided every edge weight does. -/
theorem snaps_cellsLe {g : PyGraph} (vs : List String) (hw : WeightsLe g)
    (k : Nat) : CellsLe (List.getD ((floydWarshall g vs).2) k []) := by
  by_cases hk : k ≤ vs.length
  · rw [snaps_getD g vs k hk]
    exact passes_cellsLe _ _ (initMatrix_cellsLe vs hw)
  · rw [List.getD_eq_default]
    · intro a b
      unfold mget
      simp [List.getD]
    · rw [snaps_length]; omega

/-- With all cells at most the sentinel, a relaxation whose pivot leg is the
sentinel never fires: the `>` guard is false, so the cell is untouched. -/
theorem fwUpdate_no_inf_leg {m : Mat} (k i j : Nat) (hm : CellsLe m)
    (h : mget m i k = INFINITY ∨ mget m k j = INFINITY) :
    fwUpdate k m i j = m := by
  unfold fwUpdate
  rw [if_neg]
  intro hg
  have hsum : INFINITY ≤ mget m i k + mget m k j := by
    rcases h with h | h
    · rw [← h]; exact Nat.le_add_right _ _
    · rw [← h]; exact Nat.le_add_left _ _
  have hij := hm i j
  omega

/-! ## Claim theorems for `floyd_warshall` -/

/-- C3: in the snapshot sequence returned by `floyd_warshall`, distances are
monotonically non-increasing: for every cell `(i, j)` and every pivot step
`k < n`, `snapshot[k+1][i][j] ≤ snapshot[k][i][j]` (a relaxation only ever
shortens or preserves a distance). -/
theorem claim_C3 (g : PyGraph) (vs : List String) (k : Nat)
    (hk : k < vs.length) (i j : Nat) :
    mget (List.getD ((floydWarshall g vs).2) (k + 1) []) i j ≤
      mget (List.getD ((floydWarshall g vs).2) k []) i j := by
  rw [snaps_getD_succ g vs k hk]
  exact fwPass_le _ _ _ i j

theorem claim_C3_witness :
    0 < exVs.length ∧
      mget (List.getD ((floydWarshall exG exVs).2) 1 []) 0 2 ≤
        mget (List.getD ((floydWarshall exG exVs).2) 0 []) 0 2 :=
  ⟨by decide, claim_C3 exG exVs 0 (by decide) 0 2⟩

/-- C5: the final distance matrix returned by `floyd_warshall` is exactly the
last snapshot, `snapshot[n]`, of the returned snapshot sequence (so in
particular cell-for-cell equal to it). -/
theorem claim_C5 (g : PyGraph) (vs : List String) :
    List.getD ((floydWarshall g vs).2) vs.length [] = (floydWarshall g vs).1 := by
  rw [final_eq_passes, snaps_getD g vs vs.length (Nat.le_refl _)]

/-- C10: each recorded snapshot is a deep copy taken at recording time: entry
`k` of the snapshot list equals the matrix obtained by running exactly the
first `k` pivot passes on the initial matrix, so later pivot passes and the
final return leave recorded snapshots unchanged (had the code appended an
alias instead of `copy.deepcopy(dist)`, every entry would equal the final
matrix instead). -/
theorem claim_C10 (g : PyGraph) (vs : List String) (k : Nat)
    (hk : k ≤ vs.length) :
    List.getD ((floydWarshall g vs).2) k [] =
      passes vs.length (initMatrix g vs) (List.range k) :=
  snaps_getD g vs k hk

theorem claim_C10_witness :
    1 ≤ exVs.length ∧
      List.getD ((floydWarshall exG exVs).2) 1 [] =
        passes exVs.length (initMatrix exG exVs) (List.range 1) :=
  ⟨by decide, claim_C10 exG exVs 1 (by decide)⟩

/-- C4 as stated is false: for the single-vertex graph with the self-loop
`a→a = 5`, the edge-writing loop (lines 107–109) overwrites the zero set on
the diagonal (lines 104–105), so `snapshot[0][0][0] = 5 ≠ 0`, contradicting
"0 on the diagonal" (which C6 shows is the spec's intended reading). -/
theorem claim_C4_cex :
    mget (List.getD ((floydWarshall loopG loopVs).2) 0 []) 0 0 = 5 ∧
      ¬ mget (List.getD ((floydWarshall loopG loopVs).2) 0 []) 0 0 = 0 :=
  ⟨by decide, by decide⟩

/-- C4 amended: for well-formed input in which every self-loop edge (if any)
has weight 0, `floyd_warshall` returns a snapshot sequence of length exactly
`n + 1` whose index-0 entry is the direct-edge matrix: 0 on the diagonal,
the weight of edge `i→j` where that edge exists, and `INFINITY` in every
other cell. -/
theorem claim_C4 (g : PyGraph) (vs : List String) (hwf : WFfw g vs)
    (hself : SelfLoopsZero g) :
    ((floydWarshall g vs).2).length = vs.length + 1 ∧
      ∀ i j, i < vs.length → j < vs.length →
        mget (List.getD ((floydWarshall g vs).2) 0 []) i j =
          specInitMatrix g vs i j := by
  refine ⟨snaps_length g vs, fun i j hi hj => ?_⟩
  rw [snaps_getD g vs 0 (Nat.zero_le _)]
  show mget (initMatrix g vs) i j = _
  exact initMatrix_spec hwf hself i j hi hj

theorem claim_C4_witness :
    ((floydWarshall exG exVs).2).length = exVs.length + 1 ∧
      mget (List.getD ((floydWarshall exG exVs).2) 0 []) 0 1 =
        specInitMatrix exG exVs 0 1 :=
  ⟨(claim_C4 exG exVs (by decide) (by decide)).1,
    (claim_C4 exG exVs (by decide) (by decide)).2 0 1 (by decide) (by decide)⟩

/-- C6 as stated is false: for the single-vertex graph with the self-loop
`a→a = 5`, the final all-pairs matrix has `matrix[0][0] = 5 ≠ 0` (the
self-loop weight overwrites the zero diagonal and no pivot can lower it). -/
theorem claim_C6_cex :
    mget ((floydWarshall loopG loopVs).1) 0 0 = 5 ∧
      ¬ mget ((floydWarshall loopG loopVs).1) 0 0 = 0 :=
  ⟨by decide, by decide⟩

/-- C6 amended: for well-formed input in which every self-loop edge (if any)
has weight 0, every diagonal cell of the final all-pairs matrix and of every
snapshot is 0. -/
theorem claim_C6 (g : PyGraph) (vs : List String) (hwf : WFfw g vs)
    (hself : SelfLoopsZero g) :
    (∀ i, i < vs.length → mget ((floydWarshall g vs).1) i i = 0) ∧
      ∀ k i, i < vs.length →
        mget (List.getD ((floydWarshall g vs).2) k []) i i = 0 := by
  constructor
  · intro i hi
    rw [final_eq_passes]
    exact passes_diag _ _ (initMatrix_diag hwf hself) i hi
  · intro k i hi
    by_cases hk : k ≤ vs.length
    · rw [snaps_getD g vs k hk]
      exact passes_diag _ _ (initMatrix_diag hwf hself) i hi
    · rw [List.getD_eq_default]
      · rfl
      · rw [snaps_length]; omega

theorem claim_C6_witness :
    mget ((floydWarshall exG exVs).1) 1 1 = 0 ∧
      mget (List.getD ((floydWarshall exG exVs).2) 2 []) 0 0 = 0 :=
  ⟨(claim_C6 exG exVs (by decide) (by decide)).1 1 (by decide),
    (claim_C6 exG exVs (by decide) (by decide)).2 2 0 (by decide)⟩

/-- C9 as stated is false: edge weights are unbounded Python integers, and an
edge of weight `sys.maxsize + 1` is stored as-is in the initial matrix, so a
recorded snapshot holds a cell strictly above `sys.maxsize`. -/
theorem claim_C9_cex :
    ¬ mget (List.getD ((floydWarshall bigG bigVs).2) 0 []) 0 1 ≤ INFINITY := by
  decide

/-- C9 amended: provided every edge weight is at most `sys.maxsize`, every
cell of every recorded snapshot and of the final matrix is at most
`sys.maxsize`: although the relaxation comparison computes
`dist[i][k] + dist[k][j]`, which can exceed `sys.maxsize`, such an
over-sentinel value is never stored because assignment happens only when the
sum is strictly smaller than the current cell value. -/
theorem claim_C9 (g : PyGraph) (vs : List String) (hw : WeightsLe g) :
    (∀ k a b, mget (List.getD ((floydWarshall g vs).2) k []) a b ≤ INFINITY) ∧
      ∀ a b, mget ((floydWarshall g vs).1) a b ≤ INFINITY := by
  constructor
  · intro k a b
    exact snaps_cellsLe vs hw k a b
  · intro a b
    rw [final_eq_passes]
    exact passes_cellsLe _ _ (initMatrix_cellsLe vs hw) a b

theorem claim_C9_witness :
    mget (List.getD ((floydWarshall exG exVs).2) 1 []) 0 1 ≤ INFINITY ∧
      mget ((floydWarshall exG exVs).1) 0 2 ≤ INFINITY :=
  ⟨(claim_C9 exG exVs (by decide)).1 1 0 1,
    (claim_C9 exG exVs (by decide)).2 0 2⟩

/-- C2 as stated is false: with an edge weight above `sys.maxsize`, a cell
IS updated through a pivot whose first leg is the `INFINITY` sentinel.  In
pass `k = 1` of `pivG`, just before cell `(0, 2)` is relaxed the leg
`D[0][1]` equals `INFINITY` (there is no edge `a→b`), yet the relaxation
fires and stores `INFINITY + 3`, treating the sentinel as a finite number. -/
theorem claim_C2_cex :
    mget (fwUpdate 1 (fwUpdate 1
        (List.getD ((floydWarshall pivG pivVs).2) 1 []) 0 0) 0 1) 0 1 =
      INFINITY ∧
    mget (fwUpdate 1 (fwUpdate 1 (fwUpdate 1
        (List.getD ((floydWarshall pivG pivVs).2) 1 []) 0 0) 0 1) 0 2) 0 2 =
      INFINITY + 3 :=
  ⟨by decide, by decide⟩

/-- C2 amended: provided every edge weight is at most `sys.maxsize` (so that
every matrix arising in the run has all cells at most the sentinel, which
the second and third conjuncts establish), a cell `(i, j)` is never updated
through a pivot `k` whose leg `D[i][k]` or `D[k][j]` is the `INFINITY`
sentinel: the guard `dist[i][j] > dist[i][k] + dist[k][j]` is false, the
matrix is returned unchanged, and no stored distance results from treating
the sentinel as a finite number. -/
theorem claim_C2 :
    (∀ (m : Mat) (k i j : Nat), CellsLe m →
      (mget m i k = INFINITY ∨ mget m k j = INFINITY) → fwUpdate k m i j = m) ∧
    (∀ (m : Mat) (k i j : Nat), CellsLe m → CellsLe (fwUpdate k m i j)) ∧
    (∀ (g : PyGraph) (vs : List String), WeightsLe g →
      ∀ k, CellsLe (List.getD ((floydWarshall g vs).2) k [])) :=
  ⟨fun m k i j hm h => fwUpdate_no_inf_leg k i j hm h,
    fun m k i j hm => fwUpdate_cellsLe k i j hm,
    fun g vs hw k => snaps_cellsLe vs hw k⟩

theorem claim_C2_witness :
    fwUpdate 0 (List.getD ((floydWarshall exG exVs).2) 0 []) 2 1 =
        List.getD ((floydWarshall exG exVs).2) 0 [] ∧
      mget (List.getD ((floydWarshall exG exVs).2) 0 []) 2 0 = INFINITY :=
  ⟨claim_C2.1 _ 0 2 1 (snaps_cellsLe (g := exG) exVs (by decide) 0)
      (Or.inl (by decide)),
    by decide⟩

/-! ### Heap-pop lemmas -/

theorem popMin_eq_none {l : List (Nat × String)} (h : popMin l = none) :
    l = [] := by
  cases l with
  | nil => rfl
  | cons x xs =>
      exfalso
      rw [popMin] at h
      split at h
      · simp at h
      · split at h <;> simp_all

theorem popMin_perm {l : List (Nat × String)} {p : Nat × String}
    {rest : List (Nat × String)} (h : popMin l = some (p, rest)) :
    l.Perm (p :: rest) := by
  induction l generalizing p rest with
  | nil => simp [popMin] at h
  | cons x xs ih =>
      rw [popMin] at h
      split at h
      · rename_i hp
        rw [popMin_eq_none hp]
        cases h
        exact List.Perm.refl _
      · rename_i m mrest hp
        split at h
        · cases h
          exact List.Perm.cons _ (ih hp)
        · cases h
          exact List.Perm.trans (List.Perm.cons _ (ih hp))
            (List.Perm.swap _ _ _)

theorem popMin_length {l : List (Nat × String)} {p : Nat × String}
    {rest : List (Nat × String)} (h : popMin l = some (p, rest)) :
    l.length = rest.length + 1 := by
  have := (popMin_perm h).length_eq
  simpa using this

theorem popMin_mem {l : List (Nat × String)} {p : Nat × String}
    {rest : List (Nat × String)} (h : popMin l = some (p, rest)) : p ∈ l :=
  (popMin_perm h).mem_iff.mpr (List.mem_cons_self _ _)

theorem popMin_mem_of_mem {l : List (Nat × String)} {p q : Nat × String}
    {rest : List (Nat × String)} (h : popMin l = some (p, rest)) (hq : q ∈ l) :
    q = p ∨ q ∈ rest := by
  have := (popMin_perm h).mem_iff.mp hq
  simpa using this

theorem popMin_rest_sub {l : List (Nat × String)} {p q : Nat × String}
    {rest : List (Nat × String)} (h : popMin l = some (p, rest)) (hq : q ∈ rest) :
    q ∈ l :=
  (popMin_perm h).mem_iff.mpr (List.mem_cons_of_mem _ hq)

/-! ### Relaxation-loop lemmas -/

theorem relaxNbrs_le (d : Nat) :
    ∀ (l : List (String × Nat)) (dist : String → Nat) (pq : List (Nat × String))
      (x : String), (relaxNbrs d l dist pq).1 x ≤ dist x := by
  intro l
  induction l with
  | nil => intro dist pq x; exact Nat.le_refl _
  | cons p rest ih =>
      intro dist pq x
      obtain ⟨nb, w⟩ := p
      rw [relaxNbrs]
      by_cases hg : d + w < dist nb
      · rw [if_pos hg]
        refine Nat.le_trans (ih _ _ x) ?_
        unfold updateD
        by_cases hx : x = nb
        · subst hx
          rw [if_pos rfl]
          exact Nat.le_of_lt hg
        · rw [if_neg hx]
      · rw [if_neg hg]
        exact ih _ _ x

theorem relaxNbrs_fix (d : Nat) (u : String) :
    ∀ (l : List (String × Nat)) (dist : String → Nat) (pq : List (Nat × String)),
      dist u = d → (relaxNbrs d l dist pq).1 u = d := by
  intro l
  induction l with
  | nil => intro dist pq hu; exact hu
  | cons p rest ih =>
      intro dist pq hu
      obtain ⟨nb, w⟩ := p
      rw [relaxNbrs]
      by_cases hg : d + w < dist nb
      · rw [if_pos hg]
        refine ih _ _ ?_
        unfold updateD
        by_cases hx : u = nb
        · subst hx
          rw [hu] at hg
          omega
        · rw [if_neg hx]
          exact hu
      · rw [if_neg hg]
        exact ih _ _ hu

theorem relaxNbrs_pq_mono (d : Nat) :
    ∀ (l : List (String × Nat)) (dist : String → Nat) (pq : List (Nat × String))
      (e : Nat × String), e ∈ pq → e ∈ (relaxNbrs d l dist pq).2 := by
  intro l
  induction l with
  | nil => intro dist pq e he; exact he
  | cons p rest ih =>
      intro dist pq e he
      obtain ⟨nb, w⟩ := p
      rw [relaxNbrs]
      by_cases hg : d + w < dist nb
      · rw [if_pos hg]
        exact ih _ _ e (List.mem_append_left _ he)
      · rw [if_neg hg]
        exact ih _ _ e he

theorem relaxNbrs_pushed (d : Nat) :
    ∀ (l : List (String × Nat)) (dist : String → Nat) (pq : List (Nat × String))
      (x : String), (relaxNbrs d l dist pq).1 x < dist x →
        ((relaxNbrs d l dist pq).1 x, x) ∈ (relaxNbrs d l dist pq).2 := by
  intro l
  induction l with
  | nil => intro dist pq x hx; exact absurd hx (Nat.lt_irrefl _)
  | cons p rest ih =>
      intro dist pq x hx
      obtain ⟨nb, w⟩ := p
      rw [relaxNbrs] at *
      by_cases hg : d + w < dist nb
      · rw [if_pos hg] at *
        by_cases hlt : (relaxNbrs d rest (updateD dist nb (d + w))
            (pq ++ [(d + w, nb)])).1 x < updateD dist nb (d + w) x
        · exact ih _ _ x hlt
        · have hle := relaxNbrs_le d rest (updateD dist nb (d + w))
            (pq ++ [(d + w, nb)]) x
          have heq : (relaxNbrs d rest (updateD dist nb (d + w))
              (pq ++ [(d + w, nb)])).1 x = updateD dist nb (d + w) x := by omega
          by_cases hxnb : x = nb
          · subst hxnb
            rw [heq]
            unfold updateD
            rw [if_pos rfl]
            refine relaxNbrs_pq_mono d rest _ _ _ ?_
            exact List.mem_append_right _ (List.mem_cons_self _ _)
          · exfalso
            rw [heq] at hx
            unfold updateD at hx
            rw [if_neg hxnb] at hx
            exact Nat.lt_irrefl _ hx
      · rw [if_neg hg] at *
        exact ih _ _ x hx

theorem relaxNbrs_pq_bound (d : Nat) :
    ∀ (l : List (String × Nat)) (dist : String → Nat) (pq : List (Nat × String)),
      (∀ d' x, (d', x) ∈ pq → dist x ≤ d') →
      ∀ d' x, (d', x) ∈ (relaxNbrs d l dist pq).2 →
        (relaxNbrs d l dist pq).1 x ≤ d' := by
  intro l
  induction l with
  | nil =>
      intro dist pq hpq d' x hx
      exact hpq d' x hx
  | cons p rest ih =>
      intro dist pq hpq d' x hx
      obtain ⟨nb, w⟩ := p
      rw [relaxNbrs] at *
      by_cases hg : d + w < dist nb
      · rw [if_pos hg] at *
        refine ih _ _ ?_ d' x hx
        intro d'' y hy
        rcases List.mem_append.mp hy with hy | hy
        · refine Nat.le_trans ?_ (hpq d'' y hy)
          unfold updateD
          by_cases hynb : y = nb
          · subst hynb
            rw [if_pos rfl]
            exact Nat.le_of_lt hg
          · rw [if_neg hynb]
        · rcases List.mem_singleton.mp hy with heq
          cases heq
          unfold updateD
          rw [if_pos rfl]
      · rw [if_neg hg] at *
        exact ih _ _ hpq d' x hx

theorem relaxNbrs_sound {g : PyGraph} {s u : String} (d : Nat)
    (hPu : d < INFINITY → GPath g s u d) :
    ∀ (l : List (String × Nat)), (∀ p ∈ l, p ∈ adj g u) →
      ∀ (dist : String → Nat) (pq : List (Nat × String)),
      (∀ v, dist v ≤ INFINITY) →
      (∀ v, dist v = INFINITY ∨ GPath g s v (dist v)) →
      (∀ v, (relaxNbrs d l dist pq).1 v ≤ INFINITY) ∧
        (∀ v, (relaxNbrs d l dist pq).1 v = INFINITY ∨
          GPath g s v ((relaxNbrs d l dist pq).1 v)) := by
  intro l
  induction l with
  | nil => intro _ dist pq hle hsound; exact ⟨hle, hsound⟩
  | cons p rest ih =>
      intro hsub dist pq hle hsound
      obtain ⟨nb, w⟩ := p
      rw [relaxNbrs]
      by_cases hg : d + w < dist nb
      · rw [if_pos hg]
        refine ih (fun q hq => hsub q (List.mem_cons_of_mem _ hq)) _ _ ?_ ?_
        · intro v
          unfold updateD
          by_cases hv : v = nb
          · subst hv
            rw [if_pos rfl]
            exact Nat.le_trans (Nat.le_of_lt hg) (hle v)
          · rw [if_neg hv]
            exact hle v
        · intro v
          unfold updateD
          by_cases hv : v = nb
          · subst hv
            rw [if_pos rfl]
            refine Or.inr ?_
            have hd : d < INFINITY :=
              Nat.lt_of_le_of_lt (Nat.le_add_right d w)
                (Nat.lt_of_lt_of_le hg (hle v))
            exact GPath.snoc (hPu hd) (hsub (v, w) (List.mem_cons_self _ _))
          · rw [if_neg hv]
            exact hsound v
      · rw [if_neg hg]
        exact ih (fun q hq => hsub q (List.mem_cons_of_mem _ hq)) _ _ hle hsound

theorem relaxNbrs_relaxed (d : Nat) :
    ∀ (l : List (String × Nat)) (dist : String → Nat) (pq : List (Nat × String))
      (nb : String) (w : Nat), (nb, w) ∈ l →
        (relaxNbrs d l dist pq).1 nb ≤ d + w := by
  intro l
  induction l with
  | nil => intro dist pq nb w h; simp at h
  | cons p rest ih =>
      intro dist pq nb w hmem
      obtain ⟨nb', w'⟩ := p
      rw [relaxNbrs]
      rcases List.mem_cons.mp hmem with heq | ht
      · cases heq
        by_cases hg : d + w < dist nb
        · rw [if_pos hg]
          refine Nat.le_trans (relaxNbrs_le d rest _ _ nb) ?_
          unfold updateD
          rw [if_pos rfl]
        · rw [if_neg hg]
          exact Nat.le_trans (relaxNbrs_le d rest _ _ nb) (by omega)
      · by_cases hg : d + w' < dist nb'
        · rw [if_pos hg]
          exact ih _ _ nb w ht
        · rw [if_neg hg]
          exact ih _ _ nb w ht

theorem sumD_mono {L : List String} {f g : String → Nat}
    (h : ∀ x, f x ≤ g x) : sumD L f ≤ sumD L g := by
  induction L with
  | nil => exact Nat.le_refl _
  | cons x t ih =>
      unfold sumD at *
      simp only [List.map_cons, List.sum_cons]
      exact Nat.add_le_add (h x) ih

theorem sumD_update_lt {L : List String} {dist : String → Nat} {nb : String}
    {v : Nat} (hmem : nb ∈ L) (hv : v < dist nb) :
    sumD L (updateD dist nb v) + 1 ≤ sumD L dist := by
  induction L with
  | nil => simp at hmem
  | cons x t ih =>
      unfold sumD at *
      simp only [List.map_cons, List.sum_cons]
      by_cases hx : x = nb
      · subst hx
        have h1 : updateD dist x v x = v := by unfold updateD; rw [if_pos rfl]
        have h2 : List.sum (List.map (updateD dist x v) t) ≤
            List.sum (List.map dist t) :=
          sumD_mono (fun y => by
            unfold updateD
            by_cases hy : y = x
            · subst hy; rw [if_pos rfl]; omega
            · rw [if_neg hy])
        rw [h1]
        omega
      · rcases List.mem_cons.mp hmem with heq | ht
        · exact absurd heq.symm hx
        · have h1 : updateD dist nb v x = dist x := by
            unfold updateD
            rw [if_neg hx]
          rw [h1]
          have := ih ht
          omega

theorem sumD_le {L : List String} {dist : String → Nat}
    (h : ∀ x, dist x ≤ INFINITY) : sumD L dist ≤ INFINITY * L.length := by
  induction L with
  | nil => simp [sumD]
  | cons x t ih =>
      unfold sumD at *
      simp only [List.map_cons, List.sum_cons, List.length_cons]
      have := h x
      have := ih
      ring_nf
      omega

theorem mem_nbrNames {g : PyGraph} {p : String × List (String × Nat)}
    (hp : p ∈ g) {x : String} (hx : x ∈ List.map Prod.fst p.2) :
    x ∈ nbrNames g := by
  induction g with
  | nil => simp at hp
  | cons q t ih =>
      unfold nbrNames at *
      rw [List.foldr_cons]
      rcases List.mem_cons.mp hp with heq | ht
      · subst heq
        exact List.mem_append_left _ hx
      · exact List.mem_append_right _ (ih ht)

theorem adj_names {g : PyGraph} {u : String} {q : String × Nat}
    (hq : q ∈ adj g u) : q.1 ∈ gNames g := by
  obtain ⟨a, hga, hqa⟩ := adj_sub hq
  unfold gNames
  exact List.mem_append_right _
    (mem_nbrNames hga (List.mem_map.mpr ⟨q, hqa, rfl⟩))

theorem relaxNbrs_measure (d : Nat) (L : List String) :
    ∀ (l : List (String × Nat)), (∀ p ∈ l, p.1 ∈ L) →
      ∀ (dist : String → Nat) (pq : List (Nat × String)),
      2 * sumD L (relaxNbrs d l dist pq).1 + ((relaxNbrs d l dist pq).2).length ≤
        2 * sumD L dist + pq.length := by
  intro l
  induction l with
  | nil => intro _ dist pq; exact Nat.le_refl _
  | cons p rest ih =>
      intro hsub dist pq
      obtain ⟨nb, w⟩ := p
      rw [relaxNbrs]
      by_cases hg : d + w < dist nb
      · rw [if_pos hg]
        have hmem : nb ∈ L := hsub (nb, w) (List.mem_cons_self _ _)
        have hstep : sumD L (updateD dist nb (d + w)) + 1 ≤ sumD L dist := sumD_update_lt hmem hg
        have hrec := ih (fun q hq => hsub q (List.mem_cons_of_mem _ hq))
          (updateD dist nb (d + w)) (pq ++ [(d + w, nb)])
        rw [List.length_append] at hrec
        simp only [List.length_singleton] at hrec
        omega
      · rw [if_neg hg]
        exact ih (fun q hq => hsub q (List.mem_cons_of_mem _ hq)) dist pq

theorem DInv_empty {g : PyGraph} {s : String} {dist : String → Nat}
    (h : DInv g s dist []) : DPost g s dist := by
  obtain ⟨h1, h2, h3, _, h5⟩ := h
  refine ⟨h1, h2, h3, fun u hu v w hvw => ?_⟩
  rcases h5 u hu with hin | hrel
  · simp at hin
  · exact hrel v w hvw

theorem dijkstraLoop_post (g : PyGraph) (s : String) :
    ∀ (fuel : Nat) (dist : String → Nat) (pq : List (Nat × String)),
      DInv g s dist pq →
      2 * sumD (gNames g) dist + pq.length ≤ fuel →
      DPost g s (dijkstraLoop g fuel dist pq) := by
  intro fuel
  induction fuel with
  | zero =>
      intro dist pq hinv hm
      have hlen : pq.length = 0 := by omega
      have hpq : pq = [] := List.length_eq_zero.mp hlen
      subst hpq
      exact DInv_empty hinv
  | succ fuel ih =>
      intro dist pq hinv hm
      rw [dijkstraLoop]
      split
      · rename_i hpop
        have hpq := popMin_eq_none hpop
        subst hpq
        exact DInv_empty hinv
      · rename_i d u rest hpop
        obtain ⟨h1, h2, h3, h4, h5⟩ := hinv
        by_cases hstale : d > dist u
        · rw [if_pos hstale]
          refine ih dist rest ⟨h1, h2, h3, ?_, ?_⟩ ?_
          · intro d' u' hmem
            exact h4 d' u' (popMin_rest_sub hpop hmem)
          · intro x hx
            rcases h5 x hx with hin | hrel
            · rcases popMin_mem_of_mem hpop hin with heq | hrest
              · exfalso
                have hx1 : dist x = d := congrArg Prod.fst heq
                have hx2 : x = u := congrArg Prod.snd heq
                subst hx2
                omega
              · exact Or.inl hrest
            · exact Or.inr hrel
          · have := popMin_length hpop
            omega
        · rw [if_neg hstale]
          have hmemu : (d, u) ∈ pq := popMin_mem hpop
          have hd : d = dist u := Nat.le_antisymm (by omega) (h4 d u hmemu)
          have hPu : d < INFINITY → GPath g s u d := by
            intro hlt
            rcases h3 u with hinf | hp
            · exfalso; omega
            · rw [hd]; exact hp
          have hsound := relaxNbrs_sound (g := g) (s := s) d hPu (adj g u)
            (fun p hp => hp) dist rest h2 h3
          refine ih _ _ ⟨?_, hsound.1, hsound.2, ?_, ?_⟩ ?_
          · have hle := relaxNbrs_le d (adj g u) dist rest s
            rw [h1] at hle
            omega
          · exact relaxNbrs_pq_bound d (adj g u) dist rest
              (fun d' x hmem => h4 d' x (popMin_rest_sub hpop hmem))
          · intro x hx
            by_cases hlt : (relaxNbrs d (adj g u) dist rest).1 x < dist x
            · exact Or.inl (relaxNbrs_pushed d (adj g u) dist rest x hlt)
            · have heq : (relaxNbrs d (adj g u) dist rest).1 x = dist x :=
                Nat.le_antisymm (relaxNbrs_le d (adj g u) dist rest x) (by omega)
              by_cases hxu : x = u
              · subst hxu
                refine Or.inr (fun v w hvw => ?_)
                have hrel := relaxNbrs_relaxed d (adj g x) dist rest v w hvw
                have hfix := relaxNbrs_fix d x (adj g x) dist rest hd.symm
                rw [hfix]
                exact hrel
              · rw [heq] at hx ⊢
                rcases h5 x hx with hin | hrel
                · rcases popMin_mem_of_mem hpop hin with heqq | hrest
                  · exact absurd (congrArg Prod.snd heqq) hxu
                  · exact Or.inl (relaxNbrs_pq_mono d (adj g u) dist rest _ hrest)
                · refine Or.inr (fun v w hvw => ?_)
                  exact Nat.le_trans (relaxNbrs_le d (adj g u) dist rest v)
                    (hrel v w hvw)
          · have hmeas := relaxNbrs_measure d (gNames g) (adj g u)
              (fun p hp => adj_names hp) dist rest
            have hlen := popMin_length hpop
            omega

theorem dijkstra_post (g : PyGraph) (s : String) : DPost g s (dijkstra g s) := by
  unfold dijkstra
  refine dijkstraLoop_post g s (dFuel g) _ _ ⟨?_, ?_, ?_, ?_, ?_⟩ ?_
  · unfold updateD
    rw [if_pos rfl]
  · intro v
    unfold updateD
    by_cases hv : v = s
    · rw [if_pos hv]; exact Nat.zero_le _
    · rw [if_neg hv]
  · intro v
    unfold updateD
    by_cases hv : v = s
    · subst hv
      rw [if_pos rfl]
      exact Or.inr GPath.nil
    · rw [if_neg hv]
      exact Or.inl rfl
  · intro d u hmem
    rcases List.mem_singleton.mp hmem
    unfold updateD
    rw [if_pos rfl]
  · intro u hu
    unfold updateD at hu ⊢
    by_cases hv : u = s
    · subst hv
      rw [if_pos rfl]
      exact Or.inl (List.mem_singleton.mpr rfl)
    · rw [if_neg hv] at hu
      exact absurd hu (Nat.lt_irrefl _)
  · have hsum : sumD (gNames g) (updateD (fun _ => INFINITY) s 0) ≤
        INFINITY * (gNames g).length := by
      refine sumD_le (fun x => ?_)
      unfold updateD
      by_cases hx : x = s
      · rw [if_pos hx]; exact Nat.zero_le _
      · rw [if_neg hx]
    unfold dFuel
    simp only [List.length_singleton]
    omega

/-- On exit, the recorded distance is a lower bound of no path: every path of
weight below the sentinel bounds the recorded distance from above. -/
theorem DPost_le_path {g : PyGraph} {s : String} {dist : String → Nat}
    (hp : DPost g s dist) :
    ∀ (v : String) (wt : Nat), GPath g s v wt → wt < INFINITY → dist v ≤ wt := by
  intro v wt hpath
  induction hpath with
  | nil =>
      intro _
      rw [hp.1]
  | snoc p e ih =>
      rename_i u v' dd w
      intro hwt
      have hdd : dd < INFINITY := Nat.lt_of_le_of_lt (Nat.le_add_right dd w) hwt
      have hu : dist u ≤ dd := ih hdd
      have hlt : dist u < INFINITY := Nat.lt_of_le_of_lt hu hdd
      have hrel := hp.2.2.2 u hlt v' w e
      omega

/-! ## Claim theorems for `dijkstra`, `input_graph` and the menu guard -/

/-- C1 as stated is false: edge weights are unbounded Python integers.  With
the single edge `a→b` of weight `sys.maxsize + 1`, vertex `b` is reachable
with minimum distance `sys.maxsize + 1`, but the relaxation guard
`new_dist < distances[neighbor]` compares against the sentinel and never
fires, so `dijkstra` returns the sentinel instead of the true minimum. -/
theorem bigG_path_bound : ∀ (x : String) (dd : Nat), GPath bigG "a" x dd →
    x = "b" → INFINITY + 1 ≤ dd := by
  intro x dd hp
  induction hp with
  | nil => intro h; exact absurd h (by decide)
  | snoc p e ih =>
      rename_i u v dd' w
      intro hv
      subst hv
      by_cases hu : u = "a"
      · subst hu
        have hadj : adj bigG "a" = [("b", INFINITY + 1)] := rfl
        rw [hadj] at e
        simp only [List.mem_singleton, Prod.mk.injEq] at e
        omega
      · by_cases hu2 : u = "b"
        · subst hu2
          have hadj : adj bigG "b" = [] := rfl
          rw [hadj] at e
          simp at e
        · have h1 : (u == "a") = false := by simpa using hu
          have h2 : (u == "b") = false := by simpa using hu2
          have hadj : adj bigG u = [] := by
            simp [adj, bigG, List.lookup, h1, h2]
          rw [hadj] at e
          simp at e

theorem claim_C1_cex :
    IsShortest bigG "a" "b" (INFINITY + 1) ∧
      Reachable bigG "a" "b" ∧
      dijkstra bigG "a" "b" = INFINITY ∧
      dijkstra bigG "a" "b" ≠ INFINITY + 1 := by
  have hpath : GPath bigG "a" "b" (INFINITY + 1) := by
    have h := GPath.snoc (GPath.nil : GPath bigG "a" "a" 0)
      (show ("b", INFINITY + 1) ∈ adj bigG "a" by decide)
    simpa using h
  exact ⟨⟨hpath, fun d' hp => bigG_path_bound "b" d' hp rfl⟩, ⟨_, hpath⟩,
    by decide, by decide⟩

/-- C1 amended: for every well-formed graph and source present in it,
`dijkstra` maps the source to 0, maps every vertex unreachable from the
source to the `INFINITY` sentinel, and maps every vertex whose minimum
path weight is at most `sys.maxsize` to that minimum. -/
theorem claim_C1 (g : PyGraph) (s : String) (hwf : WFGraph g)
    (hs : s ∈ keysOf g) :
    dijkstra g s s = 0 ∧
    (∀ v, ¬ Reachable g s v → dijkstra g s v = INFINITY) ∧
    (∀ v d, IsShortest g s v d → d ≤ INFINITY → dijkstra g s v = d) := by
  have hpost := dijkstra_post g s
  refine ⟨hpost.1, ?_, ?_⟩
  · intro v hnr
    rcases hpost.2.2.1 v with hinf | hpath
    · exact hinf
    · exact absurd ⟨_, hpath⟩ hnr
  · intro v d hIs hdle
    rcases Nat.lt_or_ge d INFINITY with hdlt | hdge
    · have hub := DPost_le_path hpost v d hIs.1 hdlt
      rcases hpost.2.2.1 v with hinf | hpath
      · omega
      · have hlb := hIs.2 _ hpath
        omega
    · have hdeq : d = INFINITY := by omega
      subst hdeq
      rcases hpost.2.2.1 v with hinf | hpath
      · exact hinf
      · have hlb := hIs.2 _ hpath
        have hle := hpost.2.1 v
        omega

theorem exG_path_bound : ∀ (x : String) (dd : Nat), GPath exG "A" x dd →
    (x = "B" → 4 ≤ dd) ∧ (x = "C" → 6 ≤ dd) := by
  intro x dd hp
  induction hp with
  | nil =>
      exact ⟨fun h => absurd h (by decide), fun h => absurd h (by decide)⟩
  | snoc p e ih =>
      rename_i u v dd' w
      by_cases hu : u = "A"
      · subst hu
        have hadj : adj exG "A" = [("B", 4), ("C", 10)] := rfl
        rw [hadj] at e
        simp only [List.mem_cons, List.mem_singleton, Prod.mk.injEq,
          List.not_mem_nil, or_false] at e
        rcases e with ⟨hv, hw⟩ | ⟨hv, hw⟩
        · subst hv; subst hw
          exact ⟨fun _ => by omega, fun hc => absurd hc (by decide)⟩
        · subst hv; subst hw
          exact ⟨fun hc => absurd hc (by decide), fun _ => by omega⟩
      · by_cases hu2 : u = "B"
        · subst hu2
          have hadj : adj exG "B" = [("C", 2)] := rfl
          rw [hadj] at e
          simp only [List.mem_singleton, Prod.mk.injEq] at e
          obtain ⟨hv, hw⟩ := e
          subst hv; subst hw
          have h4 : 4 ≤ dd' := ih.1 rfl
          exact ⟨fun hc => absurd hc (by decide), fun _ => by omega⟩
        · by_cases hu3 : u = "C"
          · subst hu3
            have hadj : adj exG "C" = [] := rfl
            rw [hadj] at e
            simp at e
          · have h1 : (u == "A") = false := by simpa using hu
            have h2 : (u == "B") = false := by simpa using hu2
            have h3 : (u == "C") = false := by simpa using hu3
            have hadj : adj exG u = [] := by
              simp [adj, exG, List.lookup, h1, h2, h3]
            rw [hadj] at e
            simp at e

theorem exG_shortest_B : IsShortest exG "A" "B" 4 := by
  constructor
  · have h := GPath.snoc (GPath.nil : GPath exG "A" "A" 0)
      (show ("B", 4) ∈ adj exG "A" by decide)
    simpa using h
  · exact fun d' hp => (exG_path_bound "B" d' hp).1 rfl

theorem exG_shortest_C : IsShortest exG "A" "C" 6 := by
  constructor
  · have h1 : GPath exG "A" "B" 4 := by
      have h := GPath.snoc (GPath.nil : GPath exG "A" "A" 0)
        (show ("B", 4) ∈ adj exG "A" by decide)
      simpa using h
    have h := GPath.snoc h1 (show ("C", 2) ∈ adj exG "B" by decide)
    exact h
  · exact fun d' hp => (exG_path_bound "C" d' hp).2 rfl

theorem isoG_unreach : ¬ Reachable isoG "A" "D" := by
  rintro ⟨dd, hp⟩
  have hne : ∀ (x : String) (dd : Nat), GPath isoG "A" x dd → x ≠ "D" := by
    intro x dd hp
    induction hp with
    | nil => decide
    | snoc p e ih =>
        rename_i u v dd' w
        by_cases hu : u = "A"
        · subst hu
          have hadj : adj isoG "A" = [("B", 4), ("C", 10)] := rfl
          rw [hadj] at e
          simp only [List.mem_cons, List.mem_singleton, Prod.mk.injEq,
            List.not_mem_nil, or_false] at e
          rcases e with ⟨hv, _⟩ | ⟨hv, _⟩ <;> subst hv <;> decide
        · by_cases hu2 : u = "B"
          · subst hu2
            have hadj : adj isoG "B" = [("C", 2)] := rfl
            rw [hadj] at e
            simp only [List.mem_singleton, Prod.mk.injEq] at e
            obtain ⟨hv, _⟩ := e
            subst hv
            decide
          · by_cases hu3 : u = "C"
            · subst hu3
              have hadj : adj isoG "C" = [] := rfl
              rw [hadj] at e
              simp at e
            · by_cases hu4 : u = "D"
              · subst hu4
                have hadj : adj isoG "D" = [] := rfl
                rw [hadj] at e
                simp at e
              · have h1 : (u == "A") = false := by simpa using hu
                have h2 : (u == "B") = false := by simpa using hu2
                have h3 : (u == "C") = false := by simpa using hu3
                have h4 : (u == "D") = false := by simpa using hu4
                have hadj : adj isoG u = [] := by
                  simp [adj, isoG, List.lookup, h1, h2, h3, h4]
                rw [hadj] at e
                simp at e
  exact hne "D" dd hp rfl

theorem claim_C1_witness :
    dijkstra exG "A" "A" = 0 ∧ dijkstra exG "A" "B" = 4 ∧
      dijkstra exG "A" "C" = 6 ∧ dijkstra isoG "A" "D" = INFINITY :=
  ⟨(claim_C1 exG "A" (by decide) (by decide)).1,
    (claim_C1 exG "A" (by decide) (by decide)).2.2 "B" 4 exG_shortest_B
      (by decide),
    (claim_C1 exG "A" (by decide) (by decide)).2.2 "C" 6 exG_shortest_C
      (by decide),
    (claim_C1 isoG "A" (by decide) (by decide)).2.1 "D" isoG_unreach⟩

theorem foldl_append_eq (l acc : List String) :
    List.foldl (fun vs s => vs ++ [s]) acc l = acc ++ l := by
  induction l generalizing acc with
  | nil => simp
  | cons x t ih =>
      rw [List.foldl_cons, ih]
      simp

theorem enterVertices_eq (names : List String) : enterVertices names = names := by
  unfold enterVertices
  rw [foldl_append_eq]
  simp

theorem keysOf_dictInsert (g : PyGraph) (k : String) (v : List (String × Nat)) :
    keysOf (dictInsert g k v) =
      if k ∈ keysOf g then keysOf g else keysOf g ++ [k] := by
  by_cases hk : k ∈ keysOf g
  · rw [dictInsert, if_pos hk, if_pos hk]
    unfold keysOf
    rw [List.map_map]
    refine List.map_congr_left (fun p _ => ?_)
    show (if p.1 = k then (k, v) else p).1 = p.1
    by_cases hp : p.1 = k
    · rw [if_pos hp, hp]
    · rw [if_neg hp]
  · rw [dictInsert, if_neg hk, if_neg hk]
    unfold keysOf
    rw [List.map_append]
    rfl

theorem keys_graphInit_fold (names : List String) :
    ∀ (g : PyGraph),
      keysOf (List.foldl (fun acc v => dictInsert acc v []) g names) =
        List.foldl (fun acc v => if v ∈ acc then acc else acc ++ [v])
          (keysOf g) names := by
  induction names with
  | nil => intro g; rfl
  | cons x t ih =>
      intro g
      rw [List.foldl_cons, List.foldl_cons, ih, keysOf_dictInsert]

theorem keys_graphInit (names : List String) :
    keysOf (graphInit names) = firstDedup names :=
  keys_graphInit_fold names []

theorem values_graphInit (names : List String) :
    ∀ p ∈ graphInit names, p.2 = [] := by
  unfold graphInit
  refine foldl_preserve_mem (P := fun g : PyGraph => ∀ p ∈ g, p.2 = []) _
    (fun g v _ hg => ?_) [] (by simp)
  unfold dictInsert
  by_cases hv : v ∈ keysOf g
  · rw [if_pos hv]
    intro p hp
    obtain ⟨q, hq, hfq⟩ := List.mem_map.mp hp
    by_cases hqk : q.1 = v
    · rw [if_pos hqk] at hfq
      rw [← hfq]
    · rw [if_neg hqk] at hfq
      rw [← hfq]
      exact hg q hq
  · rw [if_neg hv]
    intro p hp
    rcases List.mem_append.mp hp with hp | hp
    · exact hg p hp
    · rw [List.mem_singleton.mp hp]

theorem mem_firstDedup_fold (l : List String) :
    ∀ (acc : List String) (x : String),
      x ∈ List.foldl (fun acc v => if v ∈ acc then acc else acc ++ [v]) acc l ↔
        x ∈ acc ∨ x ∈ l := by
  induction l with
  | nil => intro acc x; simp
  | cons v t ih =>
      intro acc x
      rw [List.foldl_cons, ih]
      by_cases hv : v ∈ acc
      · rw [if_pos hv]
        constructor
        · intro h; rcases h with h | h
          · exact Or.inl h
          · exact Or.inr (List.mem_cons_of_mem _ h)
        · intro h
          rcases h with h | h
          · exact Or.inl h
          · rcases List.mem_cons.mp h with heq | ht
            · exact Or.inl (heq ▸ hv)
            · exact Or.inr ht
      · rw [if_neg hv]
        constructor
        · intro h
          rcases h with h | h
          · rcases List.mem_append.mp h with h | h
            · exact Or.inl h
            · exact Or.inr (List.mem_cons.mpr (Or.inl (List.mem_singleton.mp h)))
          · exact Or.inr (List.mem_cons_of_mem _ h)
        · intro h
          rcases h with h | h
          · exact Or.inl (List.mem_append_left _ h)
          · rcases List.mem_cons.mp h with heq | ht
            · exact Or.inl (List.mem_append_right _ (List.mem_singleton.mpr heq))
            · exact Or.inr ht

theorem mem_firstDedup (l : List String) (x : String) :
    x ∈ firstDedup l ↔ x ∈ l := by
  unfold firstDedup
  rw [mem_firstDedup_fold]
  simp

theorem exists_lookup_of_mem_keys {g : PyGraph} {k : String}
    (h : k ∈ keysOf g) : ∃ b, List.lookup k g = some b := by
  induction g with
  | nil => simp [keysOf] at h
  | cons p t ih =>
      by_cases hk : k = p.1
      · refine ⟨p.2, ?_⟩
        rw [show (p :: t : PyGraph) = (p.1, p.2) :: t by rfl]
        rw [List.lookup, show (k == p.1) = true by simp [hk]]
      · rcases List.mem_cons.mp h with heq | ht
        · exact absurd heq hk
        · obtain ⟨b, hb⟩ := ih ht
          refine ⟨b, ?_⟩
          rw [show (p :: t : PyGraph) = (p.1, p.2) :: t by rfl]
          rw [List.lookup, show (k == p.1) = false by simp [hk]]
          exact hb

theorem lookup_graphInit {names : List String} {v : String} (h : v ∈ names) :
    List.lookup v (graphInit names) = some [] := by
  have hmem : v ∈ keysOf (graphInit names) := by
    rw [keys_graphInit, mem_firstDedup]
    exact h
  obtain ⟨b, hb⟩ := exists_lookup_of_mem_keys hmem
  have hval : b = [] := values_graphInit names _ (lookup_mem hb)
  rw [hb, hval]

/-- C7 as stated is false: the vertex-entry loop of `input_graph` performs no
duplicate check and raises no error; entering `a` twice appends it twice,
so the ordered vertex sequence is changed, not left unchanged. -/
theorem claim_C7_cex :
    enterVertices ["a", "a"] = ["a", "a"] ∧
      enterVertices ["a", "a"] ≠ enterVertices ["a"] :=
  ⟨by decide, by decide⟩

/-- C7 amended: entering a vertex label never fails: the label is always
appended to the ordered vertex sequence, even when already present (so the
sequence does change on a duplicate); the adjacency dict built from the
sequence keys one empty outgoing-edge entry per distinct label, in first-
occurrence order, so a duplicate adds no new key while a fresh label is
appended with an empty outgoing-edge dict. -/
theorem claim_C7 (names : List String) (l : String) :
    enterVertices (names ++ [l]) = enterVertices names ++ [l] ∧
    (l ∈ names → enterVertices (names ++ [l]) ≠ enterVertices names) ∧
    keysOf (graphInit (names ++ [l])) =
      keysOf (graphInit names) ++ (if l ∈ names then [] else [l]) ∧
    List.lookup l (graphInit (names ++ [l])) = some [] := by
  refine ⟨?_, ?_, ?_, ?_⟩
  · rw [enterVertices_eq, enterVertices_eq]
  · intro _ heq
    rw [enterVertices_eq, enterVertices_eq] at heq
    have := congrArg List.length heq
    simp at this
  · rw [keys_graphInit, keys_graphInit]
    unfold firstDedup
    rw [List.foldl_append, List.foldl_cons, List.foldl_nil]
    show (if l ∈ List.foldl _ [] names then _ else _) = _
    by_cases hl : l ∈ names
    · rw [if_pos (by rw [show List.foldl
          (fun acc v => if v ∈ acc then acc else acc ++ [v]) [] names =
            firstDedup names from rfl, mem_firstDedup]; exact hl), if_pos hl]
      simp
    · rw [if_neg (by rw [show List.foldl
          (fun acc v => if v ∈ acc then acc else acc ++ [v]) [] names =
            firstDedup names from rfl, mem_firstDedup]; exact hl), if_neg hl]
  · exact lookup_graphInit (List.mem_append_right _ (List.mem_singleton.mpr rfl))

theorem claim_C7_witness :
    enterVertices (["a"] ++ ["a"]) = enterVertices ["a"] ++ ["a"] ∧
    enterVertices (["a"] ++ ["a"]) ≠ enterVertices ["a"] ∧
    keysOf (graphInit (["a"] ++ ["a"])) =
      keysOf (graphInit ["a"]) ++ (if "a" ∈ ["a"] then [] else ["a"]) ∧
    List.lookup "a" (graphInit (["a"] ++ ["a"])) = some [] := by
  obtain ⟨h1, h2, h3, h4⟩ := claim_C7 ["a"] "a"
  exact ⟨h1, h2 (by decide), h3, h4⟩

/-- C8: the single-source menu action (lines 240–247) fails exactly when the
entered source label is not in the vertex list — the guard `source not in
vertices` is its only error path — and otherwise runs `dijkstra`, whose
embedding is a total function (no further failure). -/
theorem claim_C8 (g : PyGraph) (vs : List String) (s : String) :
    (runDijkstraChoice g vs s = none ↔ s ∉ vs) ∧
    (s ∈ vs → runDijkstraChoice g vs s = some (dijkstra g s)) := by
  unfold runDijkstraChoice
  by_cases hs : s ∈ vs
  · rw [if_pos hs]
    exact ⟨⟨fun h => by simp at h, fun h => absurd hs h⟩, fun _ => rfl⟩
  · rw [if_neg hs]
    exact ⟨⟨fun _ => hs, fun _ => rfl⟩, fun h => absurd h hs⟩

theorem claim_C8_witness :
    runDijkstraChoice exG exVs "D" = none ∧
      runDijkstraChoice exG exVs "A" = some (dijkstra exG "A") :=
  ⟨(claim_C8 exG exVs "D").1.mpr (by decide),
    (claim_C8 exG exVs "A").2 (by decide)⟩
